import Mathlib

/-!
Shallow embedding of `rust-slice-ext` (`src/lib.rs`): an incremental slice
splitter `SplitInc` with two modes, `Before` and `After`.  Slices are embedded
as `List α`; the cursor `index` is a `Nat`; the `FnMut` predicate is embedded
as a pure step function `σ → α → Bool × σ` together with its current state
`mstate`, so stateful closures are covered.  Rust sub-slices translate as
`data[index..i] = (data.take i).drop index` and `data[index..] = data.drop index`.

Each pull (`iter_before` / `iter_after` / `next`) returns the optional run, the
updated splitter, and the list of positions at which the predicate was invoked
during the pull (the call trace), in call order; the trace instruments the two
`(self.matcher)(&self.data[i])` call sites of the source so that claims about
predicate-evaluation counts can be stated.

The scan loops of `iter_before` / `iter_after` are written with an explicit
fuel argument (always called with `fuel = data.length`, which over-approximates
the remaining range `index..data.length`); the fuel-exhausted branch coincides
with the loop falling through, returning `None` and leaving the cursor as is.
-/

inductive Mode where
  | Before : Mode
  | After : Mode
deriving DecidableEq

structure SplitInc (α : Type) (σ : Type) where
  index : Nat
  data : List α
  matcher : σ → α → Bool × σ
  mstate : σ
  mode : Mode

/-- Scan loop of `iter_before`: `for i in index..data.len()`.  Returns
(optional run, new `self.index`, new matcher state, positions probed). -/
def beforeLoop (data : List α) (index : Nat) (m : σ → α → Bool × σ) :
    Nat → Nat → σ → Option (List α) × Nat × σ × List Nat
  | 0, _, s => (none, index, s, [])
  | fuel + 1, i, s =>
    if h : i < data.length then
      let res := m s (data.get ⟨i, h⟩)
      if res.1 then
        -- match in first position and not at the end: continue searching
        if i = index ∧ i < data.length - 1 then
          let r := beforeLoop data index m fuel (i + 1) res.2
          (r.1, r.2.1, r.2.2.1, i :: r.2.2.2)
        -- match in first position at the end: return the last entry
        else if i = index then
          (some (data.drop index), data.length, res.2, [i])
        -- match found: return preceding data, cursor at the match
        else
          (some ((data.take i).drop index), i, res.2, [i])
      else
        -- out of data: return anything left
        if i = data.length - 1 then
          (some (data.drop index), data.length, res.2, [i])
        else
          let r := beforeLoop data index m fuel (i + 1) res.2
          (r.1, r.2.1, r.2.2.1, i :: r.2.2.2)
    else (none, index, s, [])

/-- Scan loop of `iter_after`: `for i in index..data.len()`. -/
def afterLoop (data : List α) (index : Nat) (m : σ → α → Bool × σ) :
    Nat → Nat → σ → Option (List α) × Nat × σ × List Nat
  | 0, _, s => (none, index, s, [])
  | fuel + 1, i, s =>
    if h : i < data.length then
      let res := m s (data.get ⟨i, h⟩)
      -- match found: include the matched element, cursor just past it
      if res.1 then
        (some ((data.take (i + 1)).drop index), i + 1, res.2, [i])
      -- out of data: return anything left
      else if i = data.length - 1 then
        (some (data.drop index), data.length, res.2, [i])
      else
        let r := afterLoop data index m fuel (i + 1) res.2
        (r.1, r.2.1, r.2.2.1, i :: r.2.2.2)
    else (none, index, s, [])

/-- One pull in `Before` mode (`SplitInc::iter_before`). -/
def SplitInc.iter_before (st : SplitInc α σ) :
    Option (List α) × SplitInc α σ × List Nat :=
  -- short circuit on completion
  if st.index = st.data.length then (none, st, [])
  else
    let r := beforeLoop st.data st.index st.matcher st.data.length st.index st.mstate
    (r.1, { st with index := r.2.1, mstate := r.2.2.1 }, r.2.2.2)

/-- One pull in `After` mode (`SplitInc::iter_after`). -/
def SplitInc.iter_after (st : SplitInc α σ) :
    Option (List α) × SplitInc α σ × List Nat :=
  -- short circuit on completion
  if st.index = st.data.length then (none, st, [])
  else
    let r := afterLoop st.data st.index st.matcher st.data.length st.index st.mstate
    (r.1, { st with index := r.2.1, mstate := r.2.2.1 }, r.2.2.2)

/-- The `Iterator::next` implementation: dispatch on the stored mode. -/
def SplitInc.next (st : SplitInc α σ) :
    Option (List α) × SplitInc α σ × List Nat :=
  match st.mode with
  | Mode.Before => st.iter_before
  | Mode.After => st.iter_after

/-- Constructor `SplitInc::split_before` (also the trait method `split_before`). -/
def SplitInc.split_before (data : List α) (matcher : σ → α → Bool × σ) (s : σ) :
    SplitInc α σ :=
  { index := 0, data := data, matcher := matcher, mstate := s, mode := Mode.Before }

/-- Constructor `SplitInc::split_after` (also the trait method `split_after`). -/
def SplitInc.split_after (data : List α) (matcher : σ → α → Bool × σ) (s : σ) :
    SplitInc α σ :=
  { index := 0, data := data, matcher := matcher, mstate := s, mode := Mode.After }

/-- The state after one pull. -/
def pullState (st : SplitInc α σ) : SplitInc α σ :=
  (st.next).2.1

/-- Drive the splitter for at most `fuel` pulls, collecting the produced runs
in emission order (the consumer loop of the iterator protocol). -/
def allRuns : Nat → SplitInc α σ → List (List α)
  | 0, _ => []
  | fuel + 1, st =>
    match st.next with
    | (none, _, _) => []
    | (some r, st', _) => r :: allRuns fuel st'

/-- Drive the splitter for at most `fuel` pulls, concatenating the predicate
call traces of every pull, in call order. -/
def allTraces : Nat → SplitInc α σ → List Nat
  | 0, _ => []
  | fuel + 1, st =>
    match st.next with
    | (none, _, tr) => tr
    | (some _, st', tr) => tr ++ allTraces fuel st'

/-- A stateless predicate as a degenerate stateful one (a pure `Fn` closure). -/
def pureP (p : α → Bool) : Unit → α → Bool × Unit :=
  fun s x => (p x, s)

/-- First matching position of a pure predicate at or after `i`, scanning with
explicit fuel; `none` when no position in `[i, data.length)` matches. -/
def findMatchFrom (p : α → Bool) (data : List α) : Nat → Nat → Option Nat
  | 0, _ => none
  | fuel + 1, i =>
    if h : i < data.length then
      if p (data.get ⟨i, h⟩) then some i else findMatchFrom p data fuel (i + 1)
    else none

/-- First position in `[j, data.length)` where the pure predicate `p` holds. -/
def findMatch (p : α → Bool) (data : List α) (j : Nat) : Option Nat :=
  findMatchFrom p data data.length j

example :
    allRuns 10 (SplitInc.split_before [0, 1, 2, 3, 4, 5, 6, 7, 8]
      (pureP (fun v => v == 2 || v == 5)) ()) = [[0, 1], [2, 3, 4], [5, 6, 7, 8]] := by
  decide

example :
    allRuns 10 (SplitInc.split_after [0, 1, 2, 3, 4, 5, 6, 7, 8]
      (pureP (fun v => v == 2 || v == 5)) ()) = [[0, 1, 2], [3, 4, 5], [6, 7, 8]] := by
  decide

example :
    allRuns 10 (SplitInc.split_before [0, 1, 2] (pureP (fun v => v == 12)) ()) =
      [[0, 1, 2]] := by
  decide

example :
    allRuns 10 (SplitInc.split_before [0, 1, 2] (pureP (fun v => v == 0)) ()) =
      [[0, 1, 2]] := by
  decide

example :
    allRuns 10 (SplitInc.split_before [0, 1, 2] (pureP (fun v => v == 2)) ()) =
      [[0, 1], [2]] := by
  decide

example :
    allRuns 10 (SplitInc.split_after [0, 1, 2] (pureP (fun v => v == 12)) ()) =
      [[0, 1, 2]] := by
  decide

example :
    allRuns 10 (SplitInc.split_after [0, 1, 2] (pureP (fun v => v == 0)) ()) =
      [[0], [1, 2]] := by
  decide

example :
    allRuns 10 (SplitInc.split_after [0, 1, 2] (pureP (fun v => v == 2)) ()) =
      [[0, 1, 2]] := by
  decide

example :
    allRuns 10 (SplitInc.split_before [0, 1, 2] (pureP (fun v => v == 1)) ()) =
      [[0], [1, 2]] := by
  decide

example :
    allTraces 10 (SplitInc.split_before [0, 1, 2] (pureP (fun v => v == 1)) ()) =
      [0, 1, 1, 2] := by
  decide

/-- Before-mode state with a pure predicate, cursor mid-iteration at `start`. -/
def beforeState (data : List α) (p : α → Bool) (start : Nat) : SplitInc α Unit :=
  { index := start, data := data, matcher := pureP p, mstate := (), mode := Mode.Before }

/-- After-mode state with a pure predicate, cursor mid-iteration at `start`. -/
def afterState (data : List α) (p : α → Bool) (start : Nat) : SplitInc α Unit :=
  { index := start, data := data, matcher := pureP p, mstate := (), mode := Mode.After }

theorem beforeLoop_oob (data : List α) (index : Nat) (m : σ → α → Bool × σ)
    (fuel i : Nat) (s : σ) (h : data.length ≤ i) :
    beforeLoop data index m fuel i s = (none, index, s, []) := by
  cases fuel with
  | zero => rfl
  | succ fuel => rw [beforeLoop, dif_neg (by omega)]

theorem afterLoop_oob (data : List α) (index : Nat) (m : σ → α → Bool × σ)
    (fuel i : Nat) (s : σ) (h : data.length ≤ i) :
    afterLoop data index m fuel i s = (none, index, s, []) := by
  cases fuel with
  | zero => rfl
  | succ fuel => rw [afterLoop, dif_neg (by omega)]

theorem beforeLoop_spec (data : List α) (index : Nat) (m : σ → α → Bool × σ) :
    ∀ (fuel i : Nat) (s : σ), index ≤ i → i < data.length → data.length ≤ fuel + i →
    ∃ j c s', beforeLoop data index m fuel i s =
        (some ((data.take j).drop index), j, s', List.range' i c) ∧
      index < j ∧ j ≤ data.length ∧ 1 ≤ c ∧ i + c ≤ j + 1 ∧ i + c ≤ data.length := by
  intro fuel
  induction fuel with
  | zero => intro i s h1 h2 h3; omega
  | succ fuel ih =>
    intro i s h1 h2 h3
    rw [beforeLoop, dif_pos h2]
    rcases hms : m s (data.get ⟨i, h2⟩) with ⟨b, s2⟩
    cases b with
    | true =>
      by_cases hfirst : i = index ∧ i < data.length - 1
      · obtain ⟨j, c, s', heq, hj1, hj2, hc1, hc2, hc3⟩ :=
          ih (i + 1) s2 (by omega) (by omega) (by omega)
        refine ⟨j, c + 1, s', ?_, hj1, hj2, by omega, by omega, by omega⟩
        simp only [hms, if_pos hfirst, heq, List.range'_succ]
        simp
      · by_cases hi : i = index
        · refine ⟨data.length, 1, s2, ?_, by omega, le_refl _, le_refl _, by omega, by omega⟩
          simp only [hms, if_neg hfirst, if_pos hi, List.take_length]
          rfl
        · refine ⟨i, 1, s2, ?_, by omega, by omega, le_refl _, by omega, by omega⟩
          simp only [hms, if_neg hfirst, if_neg hi]
          rfl
    | false =>
      by_cases hlast : i = data.length - 1
      · refine ⟨data.length, 1, s2, ?_, by omega, le_refl _, le_refl _, by omega, by omega⟩
        simp only [hms, if_pos hlast, List.take_length]
        rfl
      · obtain ⟨j, c, s', heq, hj1, hj2, hc1, hc2, hc3⟩ :=
          ih (i + 1) s2 (by omega) (by omega) (by omega)
        refine ⟨j, c + 1, s', ?_, hj1, hj2, by omega, by omega, by omega⟩
        simp only [hms, if_neg hlast, heq, List.range'_succ]
        simp

theorem afterLoop_spec (data : List α) (index : Nat) (m : σ → α → Bool × σ) :
    ∀ (fuel i : Nat) (s : σ), index ≤ i → i < data.length → data.length ≤ fuel + i →
    ∃ j c s', afterLoop data index m fuel i s =
        (some ((data.take j).drop index), j, s', List.range' i c) ∧
      index < j ∧ j ≤ data.length ∧ 1 ≤ c ∧ i + c ≤ j ∧ i + c ≤ data.length := by
  intro fuel
  induction fuel with
  | zero => intro i s h1 h2 h3; omega
  | succ fuel ih =>
    intro i s h1 h2 h3
    rw [afterLoop, dif_pos h2]
    rcases hms : m s (data.get ⟨i, h2⟩) with ⟨b, s2⟩
    cases b with
    | true =>
      refine ⟨i + 1, 1, s2, ?_, by omega, by omega, le_refl _, by omega, by omega⟩
      simp only [hms]
      rfl
    | false =>
      by_cases hlast : i = data.length - 1
      · refine ⟨data.length, 1, s2, ?_, by omega, le_refl _, le_refl _, by omega, by omega⟩
        simp only [hms, if_pos hlast, List.take_length]
        rfl
      · obtain ⟨j, c, s', heq, hj1, hj2, hc1, hc2, hc3⟩ :=
          ih (i + 1) s2 (by omega) (by omega) (by omega)
        refine ⟨j, c + 1, s', ?_, hj1, hj2, by omega, by omega, by omega⟩
        simp only [hms, if_neg hlast, heq, List.range'_succ]
        simp

theorem next_none (st : SplitInc α σ) (h : st.data.length ≤ st.index) :
    st.next = (none, st, []) := by
  cases hm : st.mode with
  | Before =>
    rw [SplitInc.next, hm, SplitInc.iter_before]
    by_cases he : st.index = st.data.length
    · rw [if_pos he]
    · rw [if_neg he, beforeLoop_oob st.data st.index st.matcher _ _ _ (by omega)]
  | After =>
    rw [SplitInc.next, hm, SplitInc.iter_after]
    by_cases he : st.index = st.data.length
    · rw [if_pos he]
    · rw [if_neg he, afterLoop_oob st.data st.index st.matcher _ _ _ (by omega)]

theorem next_spec (st : SplitInc α σ) (h : st.index < st.data.length) :
    ∃ j c s', st.next = (some ((st.data.take j).drop st.index),
        { st with index := j, mstate := s' }, List.range' st.index c) ∧
      st.index < j ∧ j ≤ st.data.length ∧ 1 ≤ c ∧ st.index + c ≤ j + 1 ∧
      st.index + c ≤ st.data.length := by
  cases hm : st.mode with
  | Before =>
    obtain ⟨j, c, s', heq, hj1, hj2, hc1, hc2, hc3⟩ :=
      beforeLoop_spec st.data st.index st.matcher st.data.length st.index st.mstate
        (le_refl _) h (by omega)
    refine ⟨j, c, s', ?_, hj1, hj2, hc1, hc2, hc3⟩
    rw [SplitInc.next, hm, SplitInc.iter_before, if_neg (by omega), heq]
    simp [hm]
  | After =>
    obtain ⟨j, c, s', heq, hj1, hj2, hc1, hc2, hc3⟩ :=
      afterLoop_spec st.data st.index st.matcher st.data.length st.index st.mstate
        (le_refl _) h (by omega)
    refine ⟨j, c, s', ?_, hj1, hj2, hc1, by omega, hc3⟩
    rw [SplitInc.next, hm, SplitInc.iter_after, if_neg (by omega), heq]
    simp [hm]

theorem next_spec_after (st : SplitInc α σ) (h : st.index < st.data.length)
    (hm : st.mode = Mode.After) :
    ∃ j c s', st.next = (some ((st.data.take j).drop st.index),
        { st with index := j, mstate := s' }, List.range' st.index c) ∧
      st.index < j ∧ j ≤ st.data.length ∧ 1 ≤ c ∧ st.index + c ≤ j := by
  obtain ⟨j, c, s', heq, hj1, hj2, hc1, hc2, hc3⟩ :=
    afterLoop_spec st.data st.index st.matcher st.data.length st.index st.mstate
      (le_refl _) h (by omega)
  refine ⟨j, c, s', ?_, hj1, hj2, hc1, hc2⟩
  rw [SplitInc.next, hm, SplitInc.iter_after, if_neg (by omega), heq]
  simp [hm]

theorem next_none_state (st : SplitInc α σ) (h : (st.next).1 = none) :
    st.next = (none, st, []) := by
  rcases Nat.lt_or_ge st.index st.data.length with hlt | hge
  · obtain ⟨j, c, s', heq, _⟩ := next_spec st hlt
    rw [heq] at h
    simp at h
  · exact next_none st hge

theorem drop_take_append (data : List α) (a b : Nat) (hab : a ≤ b)
    (hb : b ≤ data.length) :
    (data.take b).drop a ++ data.drop b = data.drop a := by
  conv_rhs => rw [← List.take_append_drop b data]
  rw [List.drop_append_of_le_length]
  rw [List.length_take]
  omega

theorem allRuns_flatten (fuel : Nat) :
    ∀ (st : SplitInc α σ), st.data.length ≤ fuel + st.index →
      (allRuns fuel st).flatten = st.data.drop st.index := by
  induction fuel with
  | zero =>
    intro st h
    rw [allRuns, List.flatten_nil, eq_comm, List.drop_eq_nil_iff]
    omega
  | succ fuel ih =>
    intro st h
    rcases Nat.lt_or_ge st.index st.data.length with hlt | hge
    · obtain ⟨j, c, s', heq, hj1, hj2, _⟩ := next_spec st hlt
      rw [allRuns, heq]
      have hrest := ih { st with index := j, mstate := s' } (by simp; omega)
      simp only at hrest
      rw [List.flatten_cons, hrest]
      exact drop_take_append st.data st.index j (by omega) hj2
    · rw [allRuns, next_none st hge]
      rw [List.flatten_nil, eq_comm, List.drop_eq_nil_iff]
      omega

theorem trace_inv (fuel : Nat) :
    ∀ (st : SplitInc α σ),
      (allTraces fuel st).Pairwise (· ≤ ·) ∧
      (∀ q ∈ allTraces fuel st, st.index ≤ q) ∧
      (∀ p, (allTraces fuel st).count p ≤ 2) ∧
      (allTraces fuel st).count st.index ≤ 1 := by
  induction fuel with
  | zero => intro st; simp [allTraces]
  | succ fuel ih =>
    intro st
    rcases Nat.lt_or_ge st.index st.data.length with hlt | hge
    · obtain ⟨j, c, s', heq, hj1, hj2, hc1, hc2, hc3⟩ := next_spec st hlt
      rw [allTraces, heq]
      obtain ⟨ihs, ihlb, ihcnt, ihcnt1⟩ := ih { st with index := j, mstate := s' }
      simp only at ihs ihlb ihcnt ihcnt1
      have hnd : (List.range' st.index c).Nodup := List.nodup_range' _ _
      have hmem : ∀ q ∈ List.range' st.index c, st.index ≤ q ∧ q < st.index + c := by
        intro q hq
        exact List.mem_range'_1.mp hq
      have hcntr : ∀ p, (List.range' st.index c).count p ≤ 1 :=
        List.nodup_iff_count_le_one.mp hnd
      refine ⟨?_, ?_, ?_, ?_⟩
      · rw [List.pairwise_append]
        refine ⟨(List.pairwise_lt_range' _ _).imp le_of_lt, ihs, ?_⟩
        intro a ha b hb
        have h1 := (hmem a ha).2
        have h2 := ihlb b hb
        omega
      · intro q hq
        rcases List.mem_append.mp hq with h1 | h1
        · exact (hmem q h1).1
        · have := ihlb q h1
          omega
      · intro p
        rw [List.count_append]
        rcases Nat.lt_trichotomy p j with hp | hp | hp
        · have hz : (allTraces fuel { st with index := j, mstate := s' }).count p = 0 := by
            rw [List.count_eq_zero]
            intro hmem2
            have := ihlb p hmem2
            omega
          have := hcntr p
          omega
        · subst hp
          have := hcntr p
          have := ihcnt1
          omega
        · have hz : (List.range' st.index c).count p = 0 := by
            rw [List.count_eq_zero]
            intro hmem2
            have := (hmem p hmem2).2
            omega
          have := ihcnt p
          omega
      · rw [List.count_append]
        have hz : (allTraces fuel { st with index := j, mstate := s' }).count st.index = 0 := by
          rw [List.count_eq_zero]
          intro hmem2
          have := ihlb st.index hmem2
          omega
        have := hcntr st.index
        omega
    · rw [allTraces, next_none st hge]
      simp

theorem after_trace_inv (fuel : Nat) :
    ∀ (st : SplitInc α σ), st.mode = Mode.After →
      (allTraces fuel st).Pairwise (· < ·) ∧
      (∀ q ∈ allTraces fuel st, st.index ≤ q) := by
  induction fuel with
  | zero => intro st _; simp [allTraces]
  | succ fuel ih =>
    intro st hm
    rcases Nat.lt_or_ge st.index st.data.length with hlt | hge
    · obtain ⟨j, c, s', heq, hj1, hj2, hc1, hc2⟩ := next_spec_after st hlt hm
      rw [allTraces, heq]
      obtain ⟨ihs, ihlb⟩ := ih { st with index := j, mstate := s' } hm
      simp only at ihs ihlb
      have hmem : ∀ q ∈ List.range' st.index c, st.index ≤ q ∧ q < st.index + c := by
        intro q hq
        exact List.mem_range'_1.mp hq
      constructor
      · rw [List.pairwise_append]
        refine ⟨List.pairwise_lt_range' _ _, ihs, ?_⟩
        intro a ha b hb
        have h1 := (hmem a ha).2
        have h2 := ihlb b hb
        omega
      · intro q hq
        rcases List.mem_append.mp hq with h1 | h1
        · exact (hmem q h1).1
        · have := ihlb q h1
          omega
    · rw [allTraces, next_none st hge]
      simp

theorem findMatchFrom_some_spec (p : α → Bool) (data : List α) :
    ∀ (fuel t i : Nat), findMatchFrom p data fuel t = some i →
      t ≤ i ∧ i < data.length ∧
      (∀ (h : i < data.length), p (data.get ⟨i, h⟩) = true) ∧
      (∀ u (hu : u < data.length), t ≤ u → u < i → p (data.get ⟨u, hu⟩) = false) := by
  intro fuel
  induction fuel with
  | zero => intro t i h; simp [findMatchFrom] at h
  | succ fuel ih =>
    intro t i h
    rw [findMatchFrom] at h
    by_cases ht : t < data.length
    · rw [dif_pos ht] at h
      by_cases hpt : p (data.get ⟨t, ht⟩) = true
      · rw [if_pos hpt] at h
        obtain rfl : t = i := by cases h; rfl
        exact ⟨le_refl _, ht, fun _ => hpt, fun u hu hu1 hu2 => by omega⟩
      · rw [if_neg hpt] at h
        obtain ⟨h1, h2, h3, h4⟩ := ih (t + 1) i h
        refine ⟨by omega, h2, h3, ?_⟩
        intro u hu hu1 hu2
        rcases Nat.eq_or_lt_of_le hu1 with rfl | hgt
        · simpa using hpt
        · exact h4 u hu (by omega) hu2
    · rw [dif_neg ht] at h
      cases h

theorem findMatchFrom_none_spec (p : α → Bool) (data : List α) :
    ∀ (fuel t : Nat), data.length ≤ fuel + t → findMatchFrom p data fuel t = none →
      ∀ u (hu : u < data.length), t ≤ u → p (data.get ⟨u, hu⟩) = false := by
  intro fuel
  induction fuel with
  | zero => intro t hf h u hu h1; omega
  | succ fuel ih =>
    intro t hf h u hu h1
    rw [findMatchFrom] at h
    by_cases ht : t < data.length
    · rw [dif_pos ht] at h
      by_cases hpt : p (data.get ⟨t, ht⟩) = true
      · rw [if_pos hpt] at h
        cases h
      · rw [if_neg hpt] at h
        rcases Nat.eq_or_lt_of_le h1 with rfl | hgt
        · simpa using hpt
        · exact ih (t + 1) (by omega) h u hu (by omega)
    · omega

theorem beforeLoop_scan_match (data : List α) (p : α → Bool) (index i : Nat)
    (hi : i < data.length) (hidx : index < i)
    (hp : ∀ (h : i < data.length), p (data.get ⟨i, h⟩) = true) :
    ∀ (fuel t : Nat) (s : Unit), index ≤ t → t ≤ i → data.length ≤ fuel + t →
      (∀ u (hu : u < data.length), t ≤ u → u < i → p (data.get ⟨u, hu⟩) = false) →
      beforeLoop data index (pureP p) fuel t s =
        (some ((data.take i).drop index), i, (), List.range' t (i - t + 1)) := by
  intro fuel
  induction fuel with
  | zero => intro t s h1 h2 h3 h4; omega
  | succ fuel ih =>
    intro t s h1 h2 h3 h4
    have ht : t < data.length := by omega
    rw [beforeLoop, dif_pos ht]
    rcases Nat.eq_or_lt_of_le h2 with rfl | hti
    · simp only [pureP, hp ht]
      rw [if_neg (show ¬(t = index ∧ t < data.length - 1) from
            fun hc => absurd hc.1 (by omega))]
      rw [if_neg (show ¬(t = index) by omega)]
      have hc : t - t + 1 = 1 := by omega
      rw [hc]
      rfl
    · have hpt : p (data.get ⟨t, ht⟩) = false := h4 t ht (le_refl _) hti
      simp only [pureP, hpt]
      rw [if_neg Bool.false_ne_true]
      rw [if_neg (show ¬(t = data.length - 1) by omega)]
      have hrec := ih (t + 1) s (by omega) (by omega) (by omega)
        (fun u hu hu1 hu2 => h4 u hu (by omega) hu2)
      rw [hrec]
      have hc : i - (t + 1) + 1 = i - t := by omega
      rw [hc, List.range'_succ]

theorem beforeLoop_scan_end (data : List α) (p : α → Bool) (index : Nat) :
    ∀ (fuel t : Nat) (s : Unit), index ≤ t → t < data.length → data.length ≤ fuel + t →
      (∀ u (hu : u < data.length), t ≤ u → p (data.get ⟨u, hu⟩) = false) →
      beforeLoop data index (pureP p) fuel t s =
        (some (data.drop index), data.length, (),
          List.range' t (data.length - t)) := by
  intro fuel
  induction fuel with
  | zero => intro t s h1 h2 h3 h4; omega
  | succ fuel ih =>
    intro t s h1 h2 h3 h4
    rw [beforeLoop, dif_pos h2]
    have hpt : p (data.get ⟨t, h2⟩) = false := h4 t h2 (le_refl _)
    simp only [pureP, hpt]
    rw [if_neg Bool.false_ne_true]
    by_cases hlast : t = data.length - 1
    · rw [if_pos hlast]
      have hc : data.length - t = 1 := by omega
      rw [hc]
      rfl
    · rw [if_neg hlast]
      have hrec := ih (t + 1) s (by omega) (by omega) (by omega)
        (fun u hu hu1 => h4 u hu (by omega))
      rw [hrec]
      have hc : data.length - t = (data.length - (t + 1)) + 1 := by omega
      rw [hc, List.range'_succ]

theorem afterLoop_scan_match (data : List α) (p : α → Bool) (index i : Nat)
    (hi : i < data.length)
    (hp : ∀ (h : i < data.length), p (data.get ⟨i, h⟩) = true) :
    ∀ (fuel t : Nat) (s : Unit), index ≤ t → t ≤ i → data.length ≤ fuel + t →
      (∀ u (hu : u < data.length), t ≤ u → u < i → p (data.get ⟨u, hu⟩) = false) →
      afterLoop data index (pureP p) fuel t s =
        (some ((data.take (i + 1)).drop index), i + 1, (),
          List.range' t (i - t + 1)) := by
  intro fuel
  induction fuel with
  | zero => intro t s h1 h2 h3 h4; omega
  | succ fuel ih =>
    intro t s h1 h2 h3 h4
    have ht : t < data.length := by omega
    rw [afterLoop, dif_pos ht]
    rcases Nat.eq_or_lt_of_le h2 with rfl | hti
    · simp only [pureP, hp ht]
      have hc : t - t + 1 = 1 := by omega
      rw [hc]
      rfl
    · have hpt : p (data.get ⟨t, ht⟩) = false := h4 t ht (le_refl _) hti
      simp only [pureP, hpt]
      rw [if_neg Bool.false_ne_true]
      rw [if_neg (show ¬(t = data.length - 1) by omega)]
      have hrec := ih (t + 1) s (by omega) (by omega) (by omega)
        (fun u hu hu1 hu2 => h4 u hu (by omega) hu2)
      rw [hrec]
      have hc : i - (t + 1) + 1 = i - t := by omega
      rw [hc, List.range'_succ]

theorem afterLoop_scan_end (data : List α) (p : α → Bool) (index : Nat) :
    ∀ (fuel t : Nat) (s : Unit), index ≤ t → t < data.length → data.length ≤ fuel + t →
      (∀ u (hu : u < data.length), t ≤ u → p (data.get ⟨u, hu⟩) = false) →
      afterLoop data index (pureP p) fuel t s =
        (some (data.drop index), data.length, (),
          List.range' t (data.length - t)) := by
  intro fuel
  induction fuel with
  | zero => intro t s h1 h2 h3 h4; omega
  | succ fuel ih =>
    intro t s h1 h2 h3 h4
    rw [afterLoop, dif_pos h2]
    have hpt : p (data.get ⟨t, h2⟩) = false := h4 t h2 (le_refl _)
    simp only [pureP, hpt]
    rw [if_neg Bool.false_ne_true]
    by_cases hlast : t = data.length - 1
    · rw [if_pos hlast]
      have hc : data.length - t = 1 := by omega
      rw [hc]
      rfl
    · rw [if_neg hlast]
      have hrec := ih (t + 1) s (by omega) (by omega) (by omega)
        (fun u hu hu1 => h4 u hu (by omega))
      rw [hrec]
      have hc : data.length - t = (data.length - (t + 1)) + 1 := by omega
      rw [hc, List.range'_succ]

theorem beforeLoop_absorb (data : List α) (p : α → Bool) (index fuel : Nat) (s : Unit)
    (h1 : index < data.length - 1)
    (hp : ∀ (h : index < data.length), p (data.get ⟨index, h⟩) = true) :
    beforeLoop data index (pureP p) (fuel + 1) index s =
      ((beforeLoop data index (pureP p) fuel (index + 1) ()).1,
       (beforeLoop data index (pureP p) fuel (index + 1) ()).2.1,
       (beforeLoop data index (pureP p) fuel (index + 1) ()).2.2.1,
       index :: (beforeLoop data index (pureP p) fuel (index + 1) ()).2.2.2) := by
  have hi : index < data.length := by omega
  rw [beforeLoop, dif_pos hi]
  simp only [pureP, hp hi]
  rw [if_pos (show True ∧ index < data.length - 1 from ⟨trivial, h1⟩)]
  rw [if_pos trivial]

theorem beforeState_next (data : List α) (p : α → Bool) (start : Nat)
    (hs : start < data.length) :
    (beforeState data p start).next =
      ((beforeLoop data start (pureP p) data.length start ()).1,
       beforeState data p (beforeLoop data start (pureP p) data.length start ()).2.1,
       (beforeLoop data start (pureP p) data.length start ()).2.2.2) := by
  show (beforeState data p start).iter_before = _
  rw [SplitInc.iter_before]
  dsimp only [beforeState]
  rw [if_neg (show ¬(start = data.length) by omega)]

theorem afterState_next (data : List α) (p : α → Bool) (start : Nat)
    (hs : start < data.length) :
    (afterState data p start).next =
      ((afterLoop data start (pureP p) data.length start ()).1,
       afterState data p (afterLoop data start (pureP p) data.length start ()).2.1,
       (afterLoop data start (pureP p) data.length start ()).2.2.2) := by
  show (afterState data p start).iter_after = _
  rw [SplitInc.iter_after]
  dsimp only [afterState]
  rw [if_neg (show ¬(start = data.length) by omega)]

theorem beforeLoop_absorb_fuel (data : List α) (p : α → Bool) (index : Nat)
    (h1 : index < data.length - 1)
    (hp : ∀ (h : index < data.length), p (data.get ⟨index, h⟩) = true) :
    ∀ (fuel : Nat) (s : Unit), 0 < fuel →
      beforeLoop data index (pureP p) fuel index s =
        ((beforeLoop data index (pureP p) (fuel - 1) (index + 1) ()).1,
         (beforeLoop data index (pureP p) (fuel - 1) (index + 1) ()).2.1,
         (beforeLoop data index (pureP p) (fuel - 1) (index + 1) ()).2.2.1,
         index :: (beforeLoop data index (pureP p) (fuel - 1) (index + 1) ()).2.2.2) := by
  intro fuel s hf
  cases fuel with
  | zero => omega
  | succ fuel =>
    have h := beforeLoop_absorb data p index fuel s h1 hp
    simpa using h

theorem beforeLoop_last (data : List α) (p : α → Bool) (index : Nat)
    (h1 : index < data.length) (h2 : index = data.length - 1)
    (hp : ∀ (h : index < data.length), p (data.get ⟨index, h⟩) = true) :
    ∀ (fuel : Nat) (s : Unit), 0 < fuel →
      beforeLoop data index (pureP p) fuel index s =
        (some (data.drop index), data.length, (), [index]) := by
  intro fuel s hf
  cases fuel with
  | zero => omega
  | succ fuel =>
    rw [beforeLoop, dif_pos h1]
    simp only [pureP, hp h1]
    rw [if_neg (show ¬(True ∧ index < data.length - 1) from fun hc => by omega)]
    rw [if_pos trivial]
    simp

/-- C1: for every sequence and every (possibly stateful) predicate,
concatenating, in emission order, all runs produced by `split_before` (and
likewise by `split_after`) reproduces the sequence exactly: no element
duplicated, none dropped, runs contiguous and in order. -/
theorem split_coverage_law (data : List α) (m : σ → α → Bool × σ) (s : σ) :
    (allRuns (data.length + 1) (SplitInc.split_before data m s)).flatten = data ∧
    (allRuns (data.length + 1) (SplitInc.split_after data m s)).flatten = data := by
  constructor
  · rw [allRuns_flatten (data.length + 1) (SplitInc.split_before data m s)
      (by simp only [SplitInc.split_before]; omega)]
    simp [SplitInc.split_before]
  · rw [allRuns_flatten (data.length + 1) (SplitInc.split_after data m s)
      (by simp only [SplitInc.split_after]; omega)]
    simp [SplitInc.split_after]

/-- C2 counterexample: in Before mode on `[0,1,2]` with predicate `(== 1)` the
full call trace is `[0, 1, 1, 2]` — position 1 is passed to the predicate
twice (once ending the first pull, once re-probed at the start of the second
pull), refuting "the predicate is called at most once per element position". -/
theorem split_before_predicate_called_twice :
    allTraces 4 (SplitInc.split_before [0, 1, 2] (pureP (fun v => v == 1)) ()) =
        [0, 1, 1, 2] ∧
      ¬ ((allTraces 4 (SplitInc.split_before [0, 1, 2]
          (pureP (fun v => v == 1)) ())).count 1 ≤ 1) := by
  decide

/-- C2 (amended): over a complete iteration of either mode, each element
position is passed to the predicate at most twice (in Before mode the
boundary position that ends a run is re-probed once at the start of the next
pull), and the probed positions are non-decreasing in sequence order. -/
theorem split_predicate_calls_bounded (st : SplitInc α σ) (fuel q : Nat) :
    (allTraces fuel st).Pairwise (· ≤ ·) ∧ (allTraces fuel st).count q ≤ 2 := by
  obtain ⟨h1, _, h3, _⟩ := trace_inv fuel st
  exact ⟨h1, h3 q⟩

/-- C6: every run the splitter returns, in either mode, for any sequence,
predicate and reachable cursor state, is non-empty. -/
theorem split_runs_nonempty (fuel : Nat) :
    ∀ (st : SplitInc α σ) (r : List α), r ∈ allRuns fuel st → r ≠ [] := by
  induction fuel with
  | zero => intro st r hr; simp [allRuns] at hr
  | succ fuel ih =>
    intro st r hr
    rcases Nat.lt_or_ge st.index st.data.length with hlt | hge
    · obtain ⟨j, c, s', heq, hj1, hj2, _⟩ := next_spec st hlt
      rw [allRuns, heq] at hr
      rcases List.mem_cons.mp hr with rfl | h1
      · have hlen : 0 < ((st.data.take j).drop st.index).length := by
          rw [List.length_drop, List.length_take]
          omega
        exact List.ne_nil_of_length_pos hlen
      · exact ih _ r h1
    · rw [allRuns, next_none st hge] at hr
      simp at hr

theorem split_runs_nonempty_witness :
    ([0] : List Nat) ∈
        allRuns 4 (SplitInc.split_before [0, 1, 2] (pureP (fun v => v == 1)) ()) ∧
      ([0] : List Nat) ≠ [] :=
  ⟨by decide,
   split_runs_nonempty 4 (SplitInc.split_before [0, 1, 2] (pureP (fun v => v == 1)) ())
     [0] (by decide)⟩

/-- C7: exhaustion is an idempotent terminal state: once a pull signals
end-of-sequence, the state is unchanged and every subsequent pull signals
end-of-sequence; the cursor is never reset. -/
theorem split_exhaustion_idempotent (st : SplitInc α σ) (n : Nat)
    (h : (st.next).1 = none) :
    pullState^[n] st = st ∧ ((pullState^[n] st).next).1 = none := by
  have hfix : pullState st = st := by
    rw [pullState, next_none_state st h]
  have hiter : pullState^[n] st = st := Function.iterate_fixed hfix n
  refine ⟨hiter, ?_⟩
  rw [hiter]
  exact h

theorem split_exhaustion_idempotent_witness :
    pullState^[3] (SplitInc.split_before ([] : List Nat) (pureP (fun _ => false)) ()) =
        SplitInc.split_before ([] : List Nat) (pureP (fun _ => false)) () ∧
      ((pullState^[3]
          (SplitInc.split_before ([] : List Nat) (pureP (fun _ => false)) ())).next).1 =
        none :=
  split_exhaustion_idempotent
    (SplitInc.split_before ([] : List Nat) (pureP (fun _ => false)) ()) 3 (by decide)

/-- C8: no pull can fault: every element access `self.data[i]` made by either
mode happens at a position `i` strictly below the length of the data, for
every sequence, predicate and state. -/
theorem split_accesses_in_bounds (fuel : Nat) :
    ∀ (st : SplitInc α σ) (q : Nat), q ∈ allTraces fuel st → q < st.data.length := by
  induction fuel with
  | zero => intro st q hq; simp [allTraces] at hq
  | succ fuel ih =>
    intro st q hq
    rcases Nat.lt_or_ge st.index st.data.length with hlt | hge
    · obtain ⟨j, c, s', heq, hj1, hj2, hc1, hc2, hc3⟩ := next_spec st hlt
      rw [allTraces, heq] at hq
      rcases List.mem_append.mp hq with h1 | h1
      · have := List.mem_range'_1.mp h1
        omega
      · have h2 := ih { st with index := j, mstate := s' } q h1
        simpa using h2
    · rw [allTraces, next_none st hge] at hq
      simp at hq

theorem split_accesses_in_bounds_witness :
    1 ∈ allTraces 4 (SplitInc.split_before [5, 6] (pureP (fun v => v == 5)) ()) ∧
      1 < (SplitInc.split_before [5, 6] (pureP (fun v => v == 5)) ()).data.length :=
  ⟨by decide,
   split_accesses_in_bounds 4 (SplitInc.split_before [5, 6] (pureP (fun v => v == 5)) ())
     1 (by decide)⟩

/-- C9: for a source of length 0, in both modes, the very first pull signals
end-of-sequence with an empty call trace (the predicate is never called), the
state is unchanged, and no run is ever produced. -/
theorem split_empty_source (m : σ → α → Bool × σ) (s : σ) :
    (SplitInc.split_before ([] : List α) m s).next =
        (none, SplitInc.split_before ([] : List α) m s, []) ∧
      (SplitInc.split_after ([] : List α) m s).next =
        (none, SplitInc.split_after ([] : List α) m s, []) ∧
      (∀ fuel, allRuns fuel (SplitInc.split_before ([] : List α) m s) = []) ∧
      (∀ fuel, allRuns fuel (SplitInc.split_after ([] : List α) m s) = []) := by
  have h1 : (SplitInc.split_before ([] : List α) m s).next =
      (none, SplitInc.split_before ([] : List α) m s, []) :=
    next_none _ (by simp [SplitInc.split_before])
  have h2 : (SplitInc.split_after ([] : List α) m s).next =
      (none, SplitInc.split_after ([] : List α) m s, []) :=
    next_none _ (by simp [SplitInc.split_after])
  refine ⟨h1, h2, ?_, ?_⟩
  · intro fuel
    cases fuel with
    | zero => rfl
    | succ fuel => rw [allRuns, h1]
  · intro fuel
    cases fuel with
    | zero => rfl
    | succ fuel => rw [allRuns, h2]

/-- C10: in After mode, for every sequence and every (possibly stateful)
predicate, the positions passed to the predicate over the entire iteration are
strictly increasing: no position is ever revisited, so each element position
is probed at most once. -/
theorem split_after_visits_each_position_once (data : List α) (m : σ → α → Bool × σ)
    (s : σ) (fuel : Nat) :
    (allTraces fuel (SplitInc.split_after data m s)).Pairwise (· < ·) ∧
      (allTraces fuel (SplitInc.split_after data m s)).Nodup :=
  ⟨(after_trace_inv fuel (SplitInc.split_after data m s) rfl).1,
   ((after_trace_inv fuel (SplitInc.split_after data m s) rfl).1).imp
     (fun h => ne_of_lt h)⟩

/-- C4: in Before mode, on a pull with cursor `start < N`: if the first
predicate match of the scan is at `i > start`, the pull returns the run
`[start, i)` (boundary excluded, held for the next run) and sets the cursor
to `i`; if the first match is at `i = start` and `start` is the last index,
the pull returns the final run `[start, N)` and sets the cursor to `N`. -/
theorem split_before_pull_spec (data : List α) (p : α → Bool) (start : Nat)
    (hs : start < data.length) :
    (∀ i, findMatch p data start = some i → start < i →
      (beforeState data p start).next =
        (some ((data.take i).drop start), beforeState data p i,
          List.range' start (i - start + 1))) ∧
    (findMatch p data start = some start → start = data.length - 1 →
      (beforeState data p start).next =
        (some (data.drop start), beforeState data p data.length, [start])) := by
  constructor
  · intro i hfm hlt
    obtain ⟨ht1, ht2, ht3, ht4⟩ := findMatchFrom_some_spec p data data.length start i hfm
    rw [beforeState_next data p start hs]
    rw [beforeLoop_scan_match data p start i ht2 hlt ht3 data.length start ()
      (le_refl _) ht1 (by omega) ht4]
  · intro hfm hlast
    obtain ⟨ht1, ht2, ht3, ht4⟩ := findMatchFrom_some_spec p data data.length start start hfm
    rw [beforeState_next data p start hs]
    rw [beforeLoop_last data p start hs hlast ht3 data.length () (by omega)]

theorem split_before_pull_spec_witness :
    (beforeState [9, 7, 9] (fun v => v == 7) 0).next =
        (some [9], beforeState [9, 7, 9] (fun v => v == 7) 1, [0, 1]) ∧
      (beforeState [9, 7, 9] (fun v => v == 9) 2).next =
        (some [9], beforeState [9, 7, 9] (fun v => v == 9) 3, [2]) := by
  constructor
  · have h := (split_before_pull_spec [9, 7, 9] (fun v => v == 7) 0 (by decide)).1 1
      (by decide) (by decide)
    simpa using h
  · have h := (split_before_pull_spec [9, 7, 9] (fun v => v == 9) 2 (by decide)).2
      (by decide) (by decide)
    simpa using h

/-- C5: in After mode, on a pull with cursor `start < N`: if the first
predicate match of the scan from `start` is at position `i`, the pull returns
the run `[start, i+1)` (boundary element included at the end) and sets the
cursor to `i+1`; if no position in `[start, N)` matches, the pull returns
`[start, N)` and sets the cursor to `N`. -/
theorem split_after_pull_spec (data : List α) (p : α → Bool) (start : Nat)
    (hs : start < data.length) :
    (∀ i, findMatch p data start = some i →
      (afterState data p start).next =
        (some ((data.take (i + 1)).drop start), afterState data p (i + 1),
          List.range' start (i - start + 1))) ∧
    (findMatch p data start = none →
      (afterState data p start).next =
        (some (data.drop start), afterState data p data.length,
          List.range' start (data.length - start))) := by
  constructor
  · intro i hfm
    obtain ⟨ht1, ht2, ht3, ht4⟩ := findMatchFrom_some_spec p data data.length start i hfm
    rw [afterState_next data p start hs]
    rw [afterLoop_scan_match data p start i ht2 ht3 data.length start ()
      (le_refl _) ht1 (by omega) ht4]
  · intro hfm
    have hnone := findMatchFrom_none_spec p data data.length start (by omega) hfm
    rw [afterState_next data p start hs]
    rw [afterLoop_scan_end data p start data.length start () (le_refl _) hs (by omega)
      (fun u hu h1 => hnone u hu h1)]

theorem split_after_pull_spec_witness :
    (afterState [9, 7, 9] (fun v => v == 7) 0).next =
        (some [9, 7], afterState [9, 7, 9] (fun v => v == 7) 2, [0, 1]) ∧
      (afterState [9, 7, 9] (fun v => v == 4) 1).next =
        (some [7, 9], afterState [9, 7, 9] (fun v => v == 4) 3, [1, 2]) := by
  constructor
  · have h := (split_after_pull_spec [9, 7, 9] (fun v => v == 7) 0 (by decide)).1 1
      (by decide)
    simpa using h
  · have h := (split_after_pull_spec [9, 7, 9] (fun v => v == 4) 1 (by decide)).2
      (by decide)
    simpa using h

/-- C3: in Before mode, with a predicate matching exactly positions `{0, k}`
for `0 < k < N - 1`, the splitter produces exactly the two runs `[0, k)` and
`[k, N)`: the match at position 0 is absorbed into the first run and no empty
leading run is emitted; in particular `split_before([0,1,2], == 0)` yields the
single run `[0,1,2]` and then end. -/
theorem split_before_absorbs_leading_match (data : List α) (p : α → Bool) (k : Nat)
    (h1 : 0 < k) (h2 : k < data.length - 1)
    (hp : ∀ i (h : i < data.length), p (data.get ⟨i, h⟩) = decide (i = 0 ∨ i = k)) :
    allRuns (data.length + 1) (SplitInc.split_before data (pureP p) ()) =
        [data.take k, data.drop k] ∧
      allRuns 4 (SplitInc.split_before [0, 1, 2] (pureP (fun v => v == 0)) ()) =
        [[0, 1, 2]] := by
  refine ⟨?_, by decide⟩
  obtain ⟨n, hn⟩ : ∃ n, data.length = n + 3 := ⟨data.length - 3, by omega⟩
  have hp0 : ∀ (h : (0 : Nat) < data.length), p (data.get ⟨0, h⟩) = true := by
    intro h
    rw [hp 0 h]
    simp
  have hpk : ∀ (h : k < data.length), p (data.get ⟨k, h⟩) = true := by
    intro h
    rw [hp k h]
    simp
  have hmid : ∀ u (hu : u < data.length), 0 + 1 ≤ u → u < k →
      p (data.get ⟨u, hu⟩) = false := by
    intro u hu hu1 hu2
    rw [hp u hu]
    simp only [decide_eq_false_iff_not]
    omega
  have htail : ∀ u (hu : u < data.length), k + 1 ≤ u → p (data.get ⟨u, hu⟩) = false := by
    intro u hu hu1
    rw [hp u hu]
    simp only [decide_eq_false_iff_not]
    omega
  have e1 : beforeLoop data 0 (pureP p) data.length 0 () =
      (some ((data.take k).drop 0), k, (), 0 :: List.range' (0 + 1) (k - (0 + 1) + 1)) := by
    rw [beforeLoop_absorb_fuel data p 0 (by omega) hp0 data.length () (by omega)]
    rw [beforeLoop_scan_match data p 0 k (by omega) h1 hpk (data.length - 1) (0 + 1) ()
      (by omega) (by omega) (by omega) hmid]
  have e2 : beforeLoop data k (pureP p) data.length k () =
      (some (data.drop k), data.length, (),
        k :: List.range' (k + 1) (data.length - (k + 1))) := by
    rw [beforeLoop_absorb_fuel data p k (by omega) hpk data.length () (by omega)]
    rw [beforeLoop_scan_end data p k (data.length - 1) (k + 1) () (by omega) (by omega)
      (by omega) htail]
  have hnext1 : (beforeState data p 0).next =
      (some (data.take k), beforeState data p k,
        0 :: List.range' (0 + 1) (k - (0 + 1) + 1)) := by
    rw [beforeState_next data p 0 (by omega), e1]
    rw [List.drop_zero]
  have hnext2 : (beforeState data p k).next =
      (some (data.drop k), beforeState data p data.length,
        k :: List.range' (k + 1) (data.length - (k + 1))) := by
    rw [beforeState_next data p k (by omega), e2]
  have hnext3 : (beforeState data p data.length).next =
      (none, beforeState data p data.length, []) :=
    next_none _ (by simp [beforeState])
  show allRuns (data.length + 1) (beforeState data p 0) = [data.take k, data.drop k]
  rw [show data.length + 1 = (n + 3) + 1 from by omega]
  rw [allRuns, hnext1]
  show data.take k :: allRuns (n + 3) (beforeState data p k) = [data.take k, data.drop k]
  rw [show (n : Nat) + 3 = (n + 2) + 1 from rfl]
  rw [allRuns, hnext2]
  show data.take k :: data.drop k ::
      allRuns (n + 2) (beforeState data p data.length) = [data.take k, data.drop k]
  rw [show (n : Nat) + 2 = (n + 1) + 1 from rfl]
  rw [allRuns, hnext3]

theorem split_before_absorbs_leading_match_witness :
    allRuns 5 (SplitInc.split_before [0, 1, 2, 3]
        (pureP (fun v => v == 0 || v == 1)) ()) = [[0], [1, 2, 3]] ∧
      allRuns 4 (SplitInc.split_before [0, 1, 2] (pureP (fun v => v == 0)) ()) =
        [[0, 1, 2]] := by
  have h := split_before_absorbs_leading_match [0, 1, 2, 3]
    (fun v => v == 0 || v == 1) 1 (by decide) (by decide) (by decide)
  exact ⟨by simpa using h.1, h.2⟩
